import Mathlib

set_option maxHeartbeats 1000000
set_option maxRecDepth 100000

/-
Verification of the core logic of the creative-prompt-generator app
(`src/App.tsx`): the slot reshuffle loop, the rich-text highlight toggle
of the notes panel, the AI-prompt display mapping, and the random pick
over the fixed word/constraint pools.
-/

namespace CPG

/-- Model of the reshuffle loop in `App.tsx` (`shuffle`, lines 512-519):
`do { next = isConstraint ? getRandomConstraint() : getRandomWord() } while (next === current)`.
The successive results of the random pick calls are supplied as the list
`picks`; the loop returns the first pick different from `current`, and
`none` when the supplied randomness is exhausted first (i.e. the do/while
loop is still running after consuming that many picks). -/
def shuffle (current : String) : List String → Option String
  | [] => none
  | p :: ps => if p = current then shuffle current ps else some p

/-- Claim C1: for every pool with more than one element and every current
value, the reshuffle loop returns an element of the pool different from the
current value; in particular with pool `["a", "b"]` and current `"a"` it
always returns `"b"`.  The random source is modelled as the stream `picks`
of pick results (each drawn from the pool); the loop terminates as soon as
the stream contains a value different from `current`, which for a pool with
more than one element a uniform pick eventually produces. -/
theorem shuffle_spec (pool picks : List String) (current : String)
    (hlen : 1 < pool.length)
    (hpool : ∀ p ∈ picks, p ∈ pool)
    (hex : ∃ p ∈ picks, p ≠ current) :
    ∃ x, shuffle current picks = some x ∧ x ∈ pool ∧ x ≠ current ∧
      (pool = ["a", "b"] → current = "a" → x = "b") := by
  induction picks with
  | nil => simp at hex
  | cons p ps ih =>
    by_cases hp : p = current
    · subst hp
      have hex' : ∃ q ∈ ps, q ≠ p := by
        rcases hex with ⟨q, hq, hq2⟩
        rcases List.mem_cons.mp hq with h | h
        · exact absurd h hq2
        · exact ⟨q, h, hq2⟩
      rcases ih (fun q hq => hpool q (List.mem_cons_of_mem _ hq)) hex' with
        ⟨x, h1, h2, h3, h4⟩
      exact ⟨x, by simpa [shuffle] using h1, h2, h3, h4⟩
    · refine ⟨p, by simp [shuffle, hp], hpool p (List.mem_cons_self _ _), hp, ?_⟩
      intro hpl hcur
      subst hpl; subst hcur
      have := hpool p (List.mem_cons_self _ _)
      simp at this
      rcases this with h | h
      · exact absurd h hp
      · exact h

/-- Witness for C1 at pool `["a", "b"]`, picks `["a", "b"]`, current `"a"`. -/
theorem shuffle_spec_witness :
    (1 : Nat) < (["a", "b"] : List String).length ∧
    ∃ x, shuffle "a" ["a", "b"] = some x ∧ x ∈ (["a", "b"] : List String) ∧
      x ≠ "a" ∧ ((["a", "b"] : List String) = ["a", "b"] → "a" = "a" → x = "b") :=
  ⟨by decide, shuffle_spec ["a", "b"] ["a", "b"] "a" (by decide)
    (by intro p hp; simpa using hp)
    ⟨"b", by simp, by decide⟩⟩

/-- Claim C2 (the code loops forever on a singleton pool): with pool `["a"]`
every random pick returns `"a"`, so when the current value is also `"a"` the
do/while loop `do { next = pick() } while (next === current)` never exits:
however many picks the loop consumes, it is still running (the model
returns `none` for every finite pick stream drawn from the pool). -/
theorem shuffle_singleton_loop :
    ∀ n : Nat, shuffle "a" (List.replicate n "a") = none := by
  intro n
  induction n with
  | zero => rfl
  | succ k ih => simpa [shuffle, List.replicate] using ih


/-- The fixed word pool of `App.tsx` (`WORD_POOL`, lines 157-180), transcribed
verbatim, duplicates included. -/
def WORD_POOL : List String := [
  "apple", "ocean", "mountain", "river", "forest", "desert", "cloud", "star",
  "moon", "sun", "wind", "rain", "snow", "fire", "water", "earth",
  "stone", "crystal", "metal", "wood", "bird", "fish", "tree", "flower",
  "leaf", "root", "branch", "seed", "fruit", "grain", "grass", "moss",
  "vine", "thorn", "petal", "wave", "echo", "silence", "shadow", "light",
  "dark", "bright", "dim", "glow", "spark", "flash", "beam", "ray",
  "shade", "hue", "voice", "sound", "music", "rhythm", "beat", "tone",
  "pitch", "melody", "harmony", "chord", "note", "song", "verse", "chorus",
  "touch", "feel", "texture", "surface", "smooth", "rough", "soft", "hard",
  "warm", "cold", "hot", "cool", "wet", "dry", "moist", "pulse",
  "heart", "breath", "life", "energy", "force", "power", "strength", "weakness",
  "vigor", "vitality", "spirit", "soul", "vision", "sight", "view", "gaze",
  "glance", "stare", "look", "see", "watch", "observe", "notice", "perceive",
  "detect", "weight", "mass", "density", "gravity", "balance", "scale", "measure",
  "size", "length", "width", "height", "depth", "breadth", "motion", "movement",
  "flow", "drift", "glide", "slide", "shift", "turn", "spin", "rotate",
  "swing", "sway", "bounce", "jump", "heat", "warmth", "temperature", "fever",
  "burn", "melt", "freeze", "ice", "frost", "chill", "breeze", "gust",
  "blast", "gale", "frequency", "wave", "vibration", "oscillation", "resonance", "echo",
  "reverberation", "amplitude", "wavelength", "spectrum", "time", "moment", "instant", "second",
  "minute", "hour", "day", "night", "dawn", "dusk", "twilight", "midnight",
  "noon", "space", "distance", "gap", "void", "emptiness", "fullness", "volume",
  "capacity", "room", "area", "zone", "region", "territory", "color", "red",
  "blue", "green", "yellow", "orange", "purple", "pink", "brown", "black",
  "white", "gray", "silver", "gold", "shape", "circle", "square", "triangle",
  "line", "curve", "angle", "corner", "edge", "point", "tip", "end",
  "beginning", "pattern", "design", "form", "structure", "frame", "outline", "border",
  "boundary", "limit", "edge", "margin", "rim", "brim", "memory", "thought",
  "idea", "concept", "notion", "belief", "opinion", "view", "perspective", "angle",
  "aspect", "facet", "emotion", "feeling", "mood", "tone", "atmosphere", "ambiance",
  "aura", "vibe", "energy", "spirit", "essence", "nature", "dream", "fantasy",
  "reality", "truth", "lie", "fact", "fiction", "story", "tale", "narrative",
  "plot", "theme", "motif", "journey", "path", "road", "trail", "track",
  "route", "way", "direction", "course", "direction", "heading", "bearing", "door",
  "window", "opening", "entrance", "exit", "gate", "portal", "threshold", "passage",
  "corridor", "hallway", "tunnel", "bridge", "connection", "link", "bond", "tie",
  "relationship", "association", "union", "merger", "fusion", "blend", "mix"
]

/-- The fixed constraint pool of `App.tsx` (`CONSTRAINT_POOL`, lines 183-197),
transcribed verbatim. -/
def CONSTRAINT_POOL : List String := [
  "monochrome", "grayscale", "sepia", "black and white", "full color", "pastel", "neon", "muted",
  "vibrant", "saturated", "desaturated", "2.5-D", "3D", "flat", "dimensional", "layered",
  "stacked", "overlapping", "interlaced", "interwoven", "nested", "30 seconds", "1 minute", "5 minutes",
  "real-time", "slow motion", "time-lapse", "frozen", "static", "dynamic", "animated", "handheld",
  "tripod", "steady", "shaky", "blurred", "sharp", "focused", "unfocused", "depth of field",
  "bokeh", "pixelated", "low-res", "high-res", "4K", "8K", "retro", "vintage",
  "modern", "futuristic", "classic", "contemporary", "vertical", "horizontal", "diagonal", "angled",
  "tilted", "rotated", "inverted", "flipped", "mirrored", "reflected", "grainy", "smooth",
  "textured", "rough", "polished", "matte", "glossy", "shiny", "dull", "lustrous",
  "8-bit", "16-bit", "vector", "raster", "bitmap", "svg", "png", "jpg",
  "gif", "webp", "glitch", "distorted", "warped", "bent", "curved", "straight",
  "linear", "non-linear", "organic", "geometric", "negative space", "positive space", "filled", "empty",
  "sparse", "dense", "crowded", "minimal", "maximal", "balanced", "macro", "micro",
  "close-up", "wide-angle", "telephoto", "fisheye", "panoramic", "zoomed", "cropped", "full-frame",
  "transparent", "opaque", "translucent", "solid", "hollow", "porous", "impermeable", "permeable",
  "breathable", "sealed", "minimalist", "maximalist", "simple", "complex", "intricate", "elaborate",
  "ornate", "plain", "bare", "stripped"
]


/-- Model of `Math.floor(Math.random() * pool.length)`: the random source is
an exact uniform value `r` in `[0, 1)` (a rational in the model), and the
chosen index is `⌊r * n⌋`. -/
def pickIndex (n : Nat) (r : ℚ) : Nat :=
  (⌊r * (n : ℚ)⌋).toNat

/-- `getRandomWord` of `App.tsx` (lines 200-202):
`WORD_POOL[Math.floor(Math.random() * WORD_POOL.length)]`, with the random
source made explicit (out-of-range indexing would yield the default). -/
def getRandomWord (r : ℚ) : String :=
  WORD_POOL.getD (pickIndex WORD_POOL.length r) ""

/-- `getRandomConstraint` of `App.tsx` (lines 205-207). -/
def getRandomConstraint (r : ℚ) : String :=
  CONSTRAINT_POOL.getD (pickIndex CONSTRAINT_POOL.length r) ""

theorem pickIndex_lt {n : Nat} (hn : 0 < n) {r : ℚ} (h0 : 0 ≤ r) (h1 : r < 1) :
    pickIndex n r < n := by
  have hn' : (0 : ℚ) < (n : ℚ) := by exact_mod_cast hn
  have hfl0 : 0 ≤ ⌊r * (n : ℚ)⌋ := Int.floor_nonneg.mpr (by positivity)
  have hflt : ⌊r * (n : ℚ)⌋ < (n : ℤ) := by
    rw [Int.floor_lt]
    calc r * (n : ℚ) < 1 * (n : ℚ) := by
          exact mul_lt_mul_of_pos_right h1 hn'
      _ = ((n : ℤ) : ℚ) := by push_cast; ring
  unfold pickIndex
  omega

theorem pickIndex_eq_iff {n : Nat} (hn : 0 < n) {r : ℚ} (h0 : 0 ≤ r)
    (i : Nat) :
    pickIndex n r = i ↔ ((i : ℚ) / n ≤ r ∧ r < ((i : ℚ) + 1) / n) := by
  have hn' : (0 : ℚ) < (n : ℚ) := by exact_mod_cast hn
  have hfl0 : 0 ≤ ⌊r * (n : ℚ)⌋ := Int.floor_nonneg.mpr (by positivity)
  have h1 : pickIndex n r = i ↔ ⌊r * (n : ℚ)⌋ = (i : ℤ) := by
    unfold pickIndex; omega
  rw [h1, Int.floor_eq_iff]
  constructor
  · rintro ⟨ha, hb⟩
    constructor
    · rw [div_le_iff₀ hn']; exact_mod_cast ha
    · rw [lt_div_iff₀ hn']; exact_mod_cast hb
  · rintro ⟨ha, hb⟩
    constructor
    · rw [div_le_iff₀ hn'] at ha; exact_mod_cast ha
    · rw [lt_div_iff₀ hn'] at hb; exact_mod_cast hb

/-- Claim C9: `getRandomWord` / `getRandomConstraint` pick a uniformly random
element: with the random source modelled as a uniform `r ∈ [0, 1)`, the
returned element is `pool[⌊r * |pool|⌋]` (always an element of the pool), the
set of `r` producing index `i` is exactly the interval
`[i / |pool|, (i + 1) / |pool|)`, and all these intervals have the same
length `1 / |pool|` — so each position of the pool is drawn with equal
probability. -/
theorem pick_uniform (r : ℚ) (h0 : 0 ≤ r) (h1 : r < 1) :
    (getRandomWord r ∈ WORD_POOL ∧
      ∀ i : Nat, pickIndex WORD_POOL.length r = i ↔
        ((i : ℚ) / WORD_POOL.length ≤ r ∧ r < ((i : ℚ) + 1) / WORD_POOL.length)) ∧
    (getRandomConstraint r ∈ CONSTRAINT_POOL ∧
      ∀ i : Nat, pickIndex CONSTRAINT_POOL.length r = i ↔
        ((i : ℚ) / CONSTRAINT_POOL.length ≤ r ∧
          r < ((i : ℚ) + 1) / CONSTRAINT_POOL.length)) ∧
    (∀ i : Nat, ((i : ℚ) + 1) / WORD_POOL.length - (i : ℚ) / WORD_POOL.length
        = 1 / WORD_POOL.length) ∧
    (∀ i : Nat, ((i : ℚ) + 1) / CONSTRAINT_POOL.length
        - (i : ℚ) / CONSTRAINT_POOL.length = 1 / CONSTRAINT_POOL.length) := by
  have hw : 0 < WORD_POOL.length := by decide
  have hc : 0 < CONSTRAINT_POOL.length := by decide
  refine ⟨⟨?_, fun i => pickIndex_eq_iff hw h0 i⟩,
    ⟨?_, fun i => pickIndex_eq_iff hc h0 i⟩, fun i => by ring, fun i => by ring⟩
  · have hlt := pickIndex_lt hw h0 h1
    unfold getRandomWord
    rw [List.getD_eq_getElem?_getD, List.getElem?_eq_getElem hlt]
    exact List.getElem_mem _
  · have hlt := pickIndex_lt hc h0 h1
    unfold getRandomConstraint
    rw [List.getD_eq_getElem?_getD, List.getElem?_eq_getElem hlt]
    exact List.getElem_mem _

/-- Witness for C9 at `r = 1 / 2`. -/
theorem pick_uniform_witness :
    (0 : ℚ) ≤ 1 / 2 ∧ ((1 : ℚ) / 2 < 1) ∧
    (getRandomWord (1 / 2) ∈ WORD_POOL ∧
      ∀ i : Nat, pickIndex WORD_POOL.length (1 / 2) = i ↔
        ((i : ℚ) / WORD_POOL.length ≤ 1 / 2 ∧
          (1 : ℚ) / 2 < ((i : ℚ) + 1) / WORD_POOL.length)) :=
  ⟨by norm_num, by norm_num, ((pick_uniform (1 / 2) (by norm_num) (by norm_num)).1)⟩

/-- Model of JavaScript `String.prototype.trim` (also Lean's `String.trim`):
strip whitespace from both ends, written over the character list so that it
evaluates by computation. -/
def jsTrim (s : String) : String :=
  ⟨((s.data.dropWhile Char.isWhitespace).reverse.dropWhile Char.isWhitespace).reverse⟩

/-- The four fixed user-facing sentences of `generateAIPrompt`. -/
def KEY_PROMPT_MSG : String := "Please enter your OpenAI API key to generate prompts."

def EMPTY_RESULT_MSG : String := "Failed to generate prompt."

def INVALID_KEY_MSG : String := "Invalid API key. Please check your OpenAI API key and try again."

def GENERIC_FAIL_MSG : String := "The stars didn't align for this prompt. Try again."

/-- Outcome of the external chat-completions call as seen by
`generateAIPrompt`: either the promise resolves with the (possibly missing)
text `response.choices[0]?.message?.content`, or it rejects (transport error,
10s timeout, auth failure, ...) with a thrown value, recorded as whether it
is an `Error` instance together with its message. -/
inductive GenResult where
  | ok : Option String → GenResult
  | err : Bool → String → GenResult

/-- The displayed-result mapping of `generateAIPrompt` in `App.tsx`
(lines 521-554): missing key prompts for a key; a resolved call displays
`content.trim()` unless it is empty/missing (then the fixed fallback); a
rejected call displays the invalid-key sentence when the thrown value is an
`Error` whose message contains the substring `"api key"`, and otherwise the
generic fallback sentence — no exception escapes to the caller. -/
def generateAIPrompt (apiKey : String) (res : GenResult) : String :=
  if jsTrim apiKey = "" then KEY_PROMPT_MSG
  else
    match res with
    | .ok none => EMPTY_RESULT_MSG
    | .ok (some s) => if jsTrim s = "" then EMPTY_RESULT_MSG else jsTrim s
    | .err isErrorInstance msg =>
        if isErrorInstance ∧ "api key".toList <:+: msg.toList then INVALID_KEY_MSG
        else GENERIC_FAIL_MSG

/-- Claim C8: the displayed result follows the specified mapping — success
with empty or missing text displays the fixed fallback `EMPTY_RESULT_MSG`;
every rejected call (transport, timeout, auth) displays one of the two fixed
fallback sentences rather than surfacing an exception, and the
invalid-credential sentence is chosen exactly when the error signal allows it
(an `Error` whose message contains `"api key"`); a timeout in particular
displays the generic fallback sentence. -/
theorem generateAIPrompt_mapping (k : String) (hk : jsTrim k ≠ "") :
    (∀ (e : Bool) (msg : String),
        generateAIPrompt k (.err e msg) = INVALID_KEY_MSG ∨
        generateAIPrompt k (.err e msg) = GENERIC_FAIL_MSG) ∧
    (∀ (e : Bool) (msg : String),
        generateAIPrompt k (.err e msg) = INVALID_KEY_MSG ↔
          (e = true ∧ "api key".toList <:+: msg.toList)) ∧
    generateAIPrompt k (.ok none) = EMPTY_RESULT_MSG ∧
    (∀ s : String, jsTrim s = "" → generateAIPrompt k (.ok (some s)) = EMPTY_RESULT_MSG) ∧
    generateAIPrompt k (.err true "Request timed out.") = GENERIC_FAIL_MSG := by
  refine ⟨?_, ?_, ?_, ?_, ?_⟩
  · intro e msg
    simp only [generateAIPrompt, if_neg hk]
    by_cases h : (e : Prop) ∧ "api key".toList <:+: msg.toList
    · left; rw [if_pos h]
    · right; rw [if_neg h]
  · intro e msg
    simp only [generateAIPrompt, if_neg hk]
    constructor
    · intro h
      by_cases hc : (e : Prop) ∧ "api key".toList <:+: msg.toList
      · exact ⟨by simpa using hc.1, hc.2⟩
      · rw [if_neg hc] at h
        exact absurd h (by decide)
    · rintro ⟨he, hmsg⟩
      subst he
      rw [if_pos ⟨rfl, hmsg⟩]
  · simp only [generateAIPrompt, if_neg hk]
  · intro s hs
    simp only [generateAIPrompt, if_neg hk, if_pos hs]
  · simp only [generateAIPrompt, if_neg hk]
    rw [if_neg]
    rintro ⟨-, h⟩
    exact absurd h (by decide)

/-- Witness for C8 at a concrete non-blank key. -/
theorem generateAIPrompt_mapping_witness :
    jsTrim "sk-test" ≠ "" ∧
    generateAIPrompt "sk-test" (.err true "Request timed out.") = GENERIC_FAIL_MSG :=
  ⟨by decide, (generateAIPrompt_mapping "sk-test" (by decide)).2.2.2.2⟩

/-- The slot-and-prompt state of the `App` component: the three slot values
and the displayed AI prompt (`null` when hidden). -/
structure AppState where
  word1 : String
  word2 : String
  constraint : String
  aiPrompt : Option String

/-- The three slot identities. -/
inductive SlotId where
  | word1
  | word2
  | constraint

/-- Reading a slot value out of the state. -/
def slotValue (st : AppState) : SlotId → String
  | .word1 => st.word1
  | .word2 => st.word2
  | .constraint => st.constraint

/-- The `setWordN` / `setConstraint` state setters. -/
def setSlot (st : AppState) : SlotId → String → AppState
  | .word1, v => { st with word1 := v }
  | .word2, v => { st with word2 := v }
  | .constraint, v => { st with constraint := v }

/-- One invocation of a shuffle callback (`shuffleWord1` etc., via `shuffle`
in `App.tsx` lines 512-519): run the reshuffle loop on the slot's current
value, then `setter(next); setAiPrompt(null)`.  `none` when the supplied
randomness does not end the loop. -/
def shuffleSlot (st : AppState) (sl : SlotId) (picks : List String) :
    Option AppState :=
  (shuffle (slotValue st sl) picks).map fun next =>
    { setSlot st sl next with aiPrompt := none }

/-- A manual edit of a slot: the slot input's onChange handler is the bare
state setter (`onChange={setWord1}` etc., `App.tsx` lines 592-611), so only
that slot value changes. -/
def setManual (st : AppState) (sl : SlotId) (v : String) : AppState :=
  setSlot st sl v

/-- Claim C10: a shuffle of any slot resets the displayed AI prompt to the
null state and leaves the other two slots unchanged, while a manual edit of a
slot leaves the displayed AI prompt and the other two slots unchanged. -/
theorem shuffle_frame (st st' : AppState) (sl : SlotId) (picks : List String)
    (v : String) (h : shuffleSlot st sl picks = some st') :
    st'.aiPrompt = none ∧
    (∀ sl2, sl2 ≠ sl → slotValue st' sl2 = slotValue st sl2) ∧
    (setManual st sl v).aiPrompt = st.aiPrompt ∧
    (∀ sl2, sl2 ≠ sl → slotValue (setManual st sl v) sl2 = slotValue st sl2) := by
  rcases hsh : shuffle (slotValue st sl) picks with _ | next
  · rw [shuffleSlot, hsh] at h; exact absurd h (by simp)
  · rw [shuffleSlot, hsh] at h
    simp only [Option.map_some'] at h
    injection h with h
    subst h
    refine ⟨?_, ?_, ?_, ?_⟩
    · cases sl <;> rfl
    · intro sl2 hne; cases sl <;> cases sl2 <;> first | exact absurd rfl hne | rfl
    · cases sl <;> rfl
    · intro sl2 hne; cases sl <;> cases sl2 <;> first | exact absurd rfl hne | rfl

/-- Witness for C10 at a concrete state and pick stream. -/
theorem shuffle_frame_witness :
    shuffleSlot ⟨"x", "y", "z", some "p"⟩ .word1 ["w"] =
      some ⟨"w", "y", "z", none⟩ ∧
    (⟨"w", "y", "z", none⟩ : AppState).aiPrompt = none ∧
    (∀ sl2, sl2 ≠ SlotId.word1 →
      slotValue ⟨"w", "y", "z", none⟩ sl2 = slotValue ⟨"x", "y", "z", some "p"⟩ sl2) := by
  have h : shuffleSlot ⟨"x", "y", "z", some "p"⟩ .word1 ["w"] =
      some ⟨"w", "y", "z", none⟩ := rfl
  have := shuffle_frame ⟨"x", "y", "z", some "p"⟩ ⟨"w", "y", "z", none⟩
    .word1 ["w"] "q" h
  exact ⟨h, this.1, this.2.1⟩


/-- The notes Document of the annotated-notes panel: the child list of the
contentEditable root, an ordered tree of text nodes and highlight-marker
spans (class `annotation-marker`), encoded spinewise — `text s rest` is a
text node followed by its following siblings, `marker cs rest` a marker span
with child list `cs` followed by its following siblings. -/
inductive Doc : Type where
  | nil : Doc
  | text : List Char → Doc → Doc
  | marker : Doc → Doc → Doc
deriving DecidableEq

/-- Total text length (in characters) of a document. -/
def docLen : Doc → Nat
  | .nil => 0
  | .text s r => s.length + docLen r
  | .marker cs r => docLen cs + docLen r

/-- Concatenated plain-text content of a document. -/
def textOf : Doc → List Char
  | .nil => []
  | .text s r => s ++ textOf r
  | .marker cs r => textOf cs ++ textOf r

/-- Appending two sibling lists. -/
def docAppend : Doc → Doc → Doc
  | .nil, y => y
  | .text s r, y => .text s (docAppend r y)
  | .marker cs r, y => .marker cs (docAppend r y)

instance : Append Doc := ⟨docAppend⟩

/-- The scan of `toggleHighlightSelection` (`App.tsx` lines 55-74): walk
every marker element of the subtree and test `range.intersectsNode`.  In
character offsets, a marker spanning `[s, e)` intersects the selection range
`[a, b)` iff `a < e ∧ s < b` — per the DOM boundary-point comparison a
marker merely touching a range endpoint does not intersect it.  `pos` is the
text position at which the sibling list starts. -/
def hasInter (a b : Nat) : Nat → Doc → Bool
  | _, .nil => false
  | pos, .text s r => hasInter a b (pos + s.length) r
  | pos, .marker cs r =>
    (decide (a < pos + docLen cs) && decide (pos < b)) ||
      hasInter a b pos cs || hasInter a b (pos + docLen cs) r

/-- One step of `Node.normalize`: prepend a text run, dropping it when empty
and merging it with an adjacent leading text node. -/
def pushText (s : List Char) (d : Doc) : Doc :=
  if s.isEmpty then d
  else
    match d with
    | .text t r => .text (s ++ t) r
    | _ => .text s d

/-- `Node.normalize` as called on the editor root after unwrapping: remove
empty text nodes and merge adjacent text nodes throughout the subtree
(element nodes, markers included, are kept — even empty ones). -/
def canon : Doc → Doc
  | .nil => .nil
  | .text s r => pushText s (canon r)
  | .marker cs r => .marker (canon cs) (canon r)

/-- The toggle-off branch (lines 76-84): every intersecting marker (walker
order: outer before inner) is unwrapped by splicing its children into its
parent in place.  Intersections are computed against the original positions:
the walker collects all intersecting markers before any is unwrapped. -/
def unwrapAll (a b : Nat) : Nat → Doc → Doc
  | _, .nil => .nil
  | pos, .text s r => .text s (unwrapAll a b (pos + s.length) r)
  | pos, .marker cs r =>
    if a < pos + docLen cs ∧ pos < b then
      unwrapAll a b pos cs ++ unwrapAll a b (pos + docLen cs) r
    else
      .marker cs (unwrapAll a b (pos + docLen cs) r)

/-- The content extraction of the toggle-on branch
(`range.surroundContents(span)`, with the `extractContents` + `insertNode`
fallback for complex selections, lines 86-96): split the sibling list into
the parts before `[a, b)`, inside it, and after it.  A text node straddling
a boundary is split exactly as DOM range splitting does (no empty fragment
is created at a cut); a marker partially covered by the range is split into
cloned shells the way `extractContents` clones partially contained elements
— inside `toggleHighlightSelection` that last case is unreachable, because
the wrap branch only runs when no marker intersects the range. -/
def extract3 (a b : Nat) : Nat → Doc → Doc × Doc × Doc
  | _, .nil => (.nil, .nil, .nil)
  | pos, .text s r =>
    let res := extract3 a b (pos + s.length) r
    if pos + s.length ≤ a then (.text s res.1, res.2.1, res.2.2)
    else if b ≤ pos then (res.1, res.2.1, .text s res.2.2)
    else
      let i := a - pos
      let j := min (b - pos) s.length
      ((if pos < a then Doc.text (s.take i) res.1 else res.1),
       .text ((s.drop i).take (j - i)) res.2.1,
       (if b < pos + s.length then Doc.text (s.drop j) res.2.2 else res.2.2))
  | pos, .marker cs r =>
    let res := extract3 a b (pos + docLen cs) r
    if pos + docLen cs ≤ a then (.marker cs res.1, res.2.1, res.2.2)
    else if b ≤ pos then (res.1, res.2.1, .marker cs res.2.2)
    else
      let inner := extract3 a b pos cs
      ((if pos < a then Doc.marker inner.1 res.1 else res.1),
       .marker inner.2.1 res.2.1,
       (if b < pos + docLen cs then Doc.marker inner.2.2 res.2.2 else res.2.2))

/-- `toggleHighlightSelection` (`App.tsx` lines 46-103) over a document and
a selection range given as character offsets `[a, b)`: a collapsed range or
one not lying within the document is rejected (no-op); if any marker
intersects the range, every intersecting marker is unwrapped and the root is
normalized; otherwise the extracted range content is wrapped in one new
marker node inserted in place (no normalization in this branch). -/
def toggleHighlightSelection (d : Doc) (a b : Nat) : Doc :=
  if a < b ∧ b ≤ docLen d then
    if hasInter a b 0 d then canon (unwrapAll a b 0 d)
    else
      let res := extract3 a b 0 d
      res.1 ++ Doc.marker res.2.1 res.2.2
  else d

/-- No marker node anywhere in the sibling list. -/
def noMark : Doc → Bool
  | .nil => true
  | .text _ r => noMark r
  | .marker _ _ => false

/-- The no-nesting invariant: no highlight marker has a highlight marker
descendant (equivalently, no marker has a marker ancestor). -/
def noNest : Doc → Bool
  | .nil => true
  | .text _ r => noNest r
  | .marker cs r => noMark cs && noNest r

/-- No marker node with empty text content, anywhere in the tree. -/
def noEmptyMark : Doc → Bool
  | .nil => true
  | .text _ r => noEmptyMark r
  | .marker cs r => (decide (textOf cs ≠ [])) && noEmptyMark cs && noEmptyMark r

/-- Whether two marker nodes occur as immediately adjacent siblings
(uncombined), anywhere in the tree. -/
def hasAdjMarkers : Doc → Bool
  | .nil => false
  | .text _ r => hasAdjMarkers r
  | .marker cs r =>
    (match r with | .marker _ _ => true | _ => false) ||
      hasAdjMarkers cs || hasAdjMarkers r


@[simp]
theorem docAppend_eq_append (x y : Doc) : docAppend x y = x ++ y := rfl

@[simp]
theorem nil_append (y : Doc) : Doc.nil ++ y = y := rfl

@[simp]
theorem text_append (s : List Char) (x y : Doc) :
    Doc.text s x ++ y = Doc.text s (x ++ y) := rfl

@[simp]
theorem marker_append (cs x y : Doc) :
    Doc.marker cs x ++ y = Doc.marker cs (x ++ y) := rfl

theorem docAppend_assoc (x y z : Doc) : x ++ y ++ z = x ++ (y ++ z) := by
  induction x with
  | nil => simp
  | text s r ih => simp [ih]
  | marker cs r ihc ihr => simp [ihr]

@[simp]
theorem docLen_append (x y : Doc) : docLen (x ++ y) = docLen x + docLen y := by
  induction x with
  | nil => simp [docLen]
  | text s r ih => simp [docLen, ih]; omega
  | marker cs r ihc ihr => simp [docLen, ihr]; omega

@[simp]
theorem textOf_append (x y : Doc) : textOf (x ++ y) = textOf x ++ textOf y := by
  induction x with
  | nil => simp [textOf]
  | text s r ih => simp [textOf, ih]
  | marker cs r ihc ihr => simp [textOf, ihr]

theorem docLen_eq_length_textOf (d : Doc) : docLen d = (textOf d).length := by
  induction d with
  | nil => rfl
  | text s r ih => simp [docLen, textOf, ih]
  | marker cs r ihc ihr => simp [docLen, textOf, ihc, ihr]

theorem textOf_pushText (s : List Char) (d : Doc) :
    textOf (pushText s d) = s ++ textOf d := by
  unfold pushText
  by_cases hs : s.isEmpty
  · simp_all
  · cases d <;> simp [hs, textOf]

theorem textOf_canon (d : Doc) : textOf (canon d) = textOf d := by
  induction d with
  | nil => rfl
  | text s r ih => simp [canon, textOf_pushText, textOf, ih]
  | marker cs r ihc ihr => simp [canon, textOf, ihc, ihr]

theorem textOf_unwrapAll (a b pos : Nat) (d : Doc) :
    textOf (unwrapAll a b pos d) = textOf d := by
  induction d generalizing pos with
  | nil => rfl
  | text s r ih => simp [unwrapAll, textOf, ih]
  | marker cs r ihc ihr =>
    simp only [unwrapAll]
    split
    · simp [textOf, ihc, ihr]
    · simp [textOf, ihc, ihr]

theorem take_mid_drop (s : List Char) (i j : Nat) (hij : i ≤ j) :
    s.take i ++ ((s.drop i).take (j - i) ++ s.drop j) = s := by
  have h1 : s.drop j = (s.drop i).drop (j - i) := by
    rw [List.drop_drop]
    congr 1
    omega
  rw [h1, List.take_append_drop, List.take_append_drop]

theorem extract3_left_nil (a b : Nat) (d : Doc) :
    ∀ pos, a < pos → (extract3 a b pos d).1 = Doc.nil := by
  induction d with
  | nil => intro pos _; rfl
  | text s r ih =>
    intro pos hpos
    simp only [extract3]
    split
    · omega
    · split
      · exact ih _ (by omega)
      · rw [if_neg (by omega)]
        exact ih _ (by omega)
  | marker cs r ihc ihr =>
    intro pos hpos
    simp only [extract3]
    split
    · omega
    · split
      · exact ihr _ (by omega)
      · rw [if_neg (by omega)]
        exact ihr _ (by omega)

theorem textOf_extract3_left (a b : Nat) (d : Doc) :
    ∀ pos, a ≤ pos → textOf (extract3 a b pos d).1 = [] := by
  induction d with
  | nil => intro pos _; rfl
  | text s r ih =>
    intro pos hpos
    simp only [extract3]
    split
    · rename_i h
      have hs : s = [] := List.length_eq_zero.mp (by omega)
      subst hs
      simpa [textOf] using ih _ (by omega)
    · split
      · exact ih _ (by omega)
      · rw [if_neg (by omega)]
        exact ih _ (by omega)
  | marker cs r ihc ihr =>
    intro pos hpos
    simp only [extract3]
    split
    · rename_i h
      have hcs : textOf cs = [] := by
        have := docLen_eq_length_textOf cs
        have : (textOf cs).length = 0 := by omega
        exact List.length_eq_zero.mp this
      simpa [textOf, hcs] using ihr _ (by omega)
    · split
      · exact ihr _ (by omega)
      · rw [if_neg (by omega)]
        exact ihr _ (by omega)

theorem textOf_extract3_mid (a b : Nat) (d : Doc) :
    ∀ pos, b ≤ pos → textOf (extract3 a b pos d).2.1 = [] := by
  induction d with
  | nil => intro pos _; rfl
  | text s r ih =>
    intro pos hpos
    simp only [extract3]
    by_cases h1 : pos + s.length ≤ a
    · rw [if_pos h1]; exact ih _ (by omega)
    · rw [if_neg h1, if_pos hpos]
      exact ih _ (by omega)
  | marker cs r ihc ihr =>
    intro pos hpos
    simp only [extract3]
    by_cases h1 : pos + docLen cs ≤ a
    · rw [if_pos h1]; exact ihr _ (by omega)
    · rw [if_neg h1, if_pos hpos]
      exact ihr _ (by omega)

theorem textOf_extract3_right (a b : Nat) (d : Doc) :
    ∀ pos, pos + docLen d ≤ b → textOf (extract3 a b pos d).2.2 = [] := by
  induction d with
  | nil => intro pos _; rfl
  | text s r ih =>
    intro pos hpos
    simp only [docLen] at hpos
    simp only [extract3]
    by_cases h1 : pos + s.length ≤ a
    · rw [if_pos h1]; exact ih _ (by omega)
    · rw [if_neg h1]
      by_cases h2 : b ≤ pos
      · rw [if_pos h2]
        have hs : s = [] := List.length_eq_zero.mp (by omega)
        subst hs
        simpa [textOf] using ih _ (by omega)
      · rw [if_neg h2, if_neg (show ¬ b < pos + s.length by omega)]
        exact ih _ (by omega)
  | marker cs r ihc ihr =>
    intro pos hpos
    simp only [docLen] at hpos
    simp only [extract3]
    by_cases h1 : pos + docLen cs ≤ a
    · rw [if_pos h1]; exact ihr _ (by omega)
    · rw [if_neg h1]
      by_cases h2 : b ≤ pos
      · rw [if_pos h2]
        have hcs : textOf cs = [] := by
          have h := docLen_eq_length_textOf cs
          exact List.length_eq_zero.mp (by omega)
        simpa [textOf, hcs] using ihr _ (by omega)
      · rw [if_neg h2, if_neg (show ¬ b < pos + docLen cs by omega)]
        exact ihr _ (by omega)

theorem textOf_extract3 (a b : Nat) (hab : a ≤ b) (d : Doc) :
    ∀ pos,
      textOf (extract3 a b pos d).1 ++
        (textOf (extract3 a b pos d).2.1 ++ textOf (extract3 a b pos d).2.2) =
      textOf d := by
  induction d with
  | nil => intro pos; rfl
  | text s r ih =>
    intro pos
    simp only [extract3]
    by_cases h1 : pos + s.length ≤ a
    · rw [if_pos h1]
      simp [textOf, List.append_assoc, ih (pos + s.length)]
    · rw [if_neg h1]
      by_cases h2 : b ≤ pos
      · rw [if_pos h2]
        have hL := textOf_extract3_left a b r (pos + s.length) (by omega)
        have hM := textOf_extract3_mid a b r (pos + s.length) (by omega)
        have hR := ih (pos + s.length)
        rw [hL, hM] at hR
        simp only [List.nil_append] at hR
        simp [textOf, hL, hM, hR]
      · rw [if_neg h2]
        have hL := textOf_extract3_left a b r (pos + s.length) (by omega)
        have hR := ih (pos + s.length)
        rw [hL] at hR
        simp only [List.nil_append] at hR
        by_cases hend : b ≤ pos + s.length
        · have hM := textOf_extract3_mid a b r (pos + s.length) hend
          rw [hM] at hR
          simp only [List.nil_append] at hR
          by_cases hpa : pos < a
          · by_cases hbl : b < pos + s.length
            · rw [if_pos hpa, if_pos hbl]
              have hij : a - pos ≤ min (b - pos) s.length := by omega
              have hcore := take_mid_drop s (a - pos) (min (b - pos) s.length) hij
              simp only [textOf, hL, hM, hR, List.append_nil]
              conv_rhs => rw [← hcore]
              simp [List.append_assoc]
            · rw [if_pos hpa, if_neg hbl]
              have hj : min (b - pos) s.length = s.length := by omega
              have hmid : (s.drop (a - pos)).take (min (b - pos) s.length - (a - pos))
                  = s.drop (a - pos) := by
                rw [hj]
                exact List.take_of_length_le (by simp)
              simp only [textOf, hL, hM, hR, hmid, List.append_nil]
              rw [← List.append_assoc, List.take_append_drop]
          · have hi : a - pos = 0 := by omega
            by_cases hbl : b < pos + s.length
            · rw [if_neg hpa, if_pos hbl]
              have hmid : (s.drop (a - pos)).take (min (b - pos) s.length - (a - pos))
                  = s.take (min (b - pos) s.length) := by
                simp [hi]
              simp only [textOf, hL, hM, hR, hmid, List.append_nil, List.nil_append]
              rw [← List.append_assoc, List.take_append_drop]
            · rw [if_neg hpa, if_neg hbl]
              have hj : min (b - pos) s.length = s.length := by omega
              have hmid : (s.drop (a - pos)).take (min (b - pos) s.length - (a - pos))
                  = s := by
                simp [hi, hj]
              simp only [textOf, hL, hM, hR, hmid, List.append_nil, List.nil_append]
        · have hbl : ¬ b < pos + s.length := by omega
          have hj : min (b - pos) s.length = s.length := by omega
          by_cases hpa : pos < a
          · rw [if_pos hpa, if_neg hbl]
            have hmid : (s.drop (a - pos)).take (min (b - pos) s.length - (a - pos))
                = s.drop (a - pos) := by
              rw [hj]
              exact List.take_of_length_le (by simp)
            simp only [textOf, hL, hmid, List.append_nil, List.nil_append]
            rw [List.append_assoc, hR, ← List.append_assoc, List.take_append_drop]
          · rw [if_neg hpa, if_neg hbl]
            have hi : a - pos = 0 := by omega
            have hmid : (s.drop (a - pos)).take (min (b - pos) s.length - (a - pos))
                = s := by
              simp [hi, hj]
            simp only [textOf, hL, hmid, List.nil_append]
            rw [List.append_assoc, hR]
  | marker cs r ihc ihr =>
    intro pos
    simp only [extract3]
    by_cases h1 : pos + docLen cs ≤ a
    · rw [if_pos h1]
      simp [textOf, List.append_assoc, ihr (pos + docLen cs)]
    · rw [if_neg h1]
      by_cases h2 : b ≤ pos
      · rw [if_pos h2]
        have hL := textOf_extract3_left a b r (pos + docLen cs) (by omega)
        have hM := textOf_extract3_mid a b r (pos + docLen cs) (by omega)
        have hR := ihr (pos + docLen cs)
        rw [hL, hM] at hR
        simp only [List.nil_append] at hR
        simp [textOf, hL, hM, hR]
      · rw [if_neg h2]
        have hin := ihc pos
        have hL := textOf_extract3_left a b r (pos + docLen cs) (by omega)
        by_cases hbr : b < pos + docLen cs
        · have hM := textOf_extract3_mid a b r (pos + docLen cs) (by omega)
          have hR := ihr (pos + docLen cs)
          rw [hL, hM] at hR
          simp only [List.nil_append] at hR
          by_cases hpa : pos < a
          · rw [if_pos hpa, if_pos hbr]
            simp only [textOf, hL, hM, hR, List.append_nil]
            conv_rhs => rw [← hin]
            simp [List.append_assoc]
          · rw [if_neg hpa, if_pos hbr]
            have hl : textOf (extract3 a b pos cs).1 = [] :=
              textOf_extract3_left a b cs pos (by omega)
            rw [hl] at hin
            simp only [List.nil_append] at hin
            simp only [textOf, hL, hM, hR, List.append_nil, List.nil_append]
            conv_rhs => rw [← hin]
            simp [List.append_assoc]
        · have hrr : textOf (extract3 a b pos cs).2.2 = [] :=
            textOf_extract3_right a b cs pos (by omega)
          rw [hrr, List.append_nil] at hin
          have hR := ihr (pos + docLen cs)
          rw [hL] at hR
          simp only [List.nil_append] at hR
          by_cases hpa : pos < a
          · rw [if_pos hpa, if_neg hbr]
            simp only [textOf, hL, List.append_nil]
            conv_rhs => rw [← hin, ← hR]
            simp [List.append_assoc]
          · rw [if_neg hpa, if_neg hbr]
            have hl : textOf (extract3 a b pos cs).1 = [] :=
              textOf_extract3_left a b cs pos (by omega)
            rw [hl] at hin
            simp only [List.nil_append] at hin
            simp only [textOf, hL, List.nil_append]
            rw [List.append_assoc, hR, hin]


theorem extract3_of_ge (a b : Nat) (hab : a < b) (d : Doc) :
    ∀ pos, b ≤ pos → extract3 a b pos d = (.nil, .nil, d) := by
  induction d with
  | nil => intro pos _; rfl
  | text s r ih =>
    intro pos hpos
    simp only [extract3, ih (pos + s.length) (by omega)]
    rw [if_neg (by omega), if_pos hpos]
  | marker cs r ihc ihr =>
    intro pos hpos
    simp only [extract3, ihr (pos + docLen cs) (by omega)]
    rw [if_neg (by omega), if_pos hpos]

theorem extract3_len (a b : Nat) (hab : a ≤ b) (d : Doc) :
    ∀ pos,
      docLen (extract3 a b pos d).1 = min (a - pos) (docLen d) ∧
      docLen (extract3 a b pos d).2.1
        = min (b - pos) (docLen d) - min (a - pos) (docLen d) ∧
      docLen (extract3 a b pos d).2.2 = docLen d - min (b - pos) (docLen d) := by
  induction d with
  | nil => intro pos; simp [extract3, docLen]
  | text s r ih =>
    intro pos
    obtain ⟨ih1, ih2, ih3⟩ := ih (pos + s.length)
    simp only [extract3]
    by_cases h1 : pos + s.length ≤ a
    · rw [if_pos h1]
      simp only [docLen, ih1, ih2, ih3]
      exact ⟨by omega, by omega, by omega⟩
    · rw [if_neg h1]
      by_cases h2 : b ≤ pos
      · rw [if_pos h2]
        simp only [docLen, ih1, ih2, ih3]
        exact ⟨by omega, by omega, by omega⟩
      · rw [if_neg h2]
        split_ifs <;>
          simp only [docLen, List.length_take, List.length_drop, ih1, ih2, ih3] <;>
          exact ⟨by omega, by omega, by omega⟩
  | marker cs r ihc ihr =>
    intro pos
    obtain ⟨ih1, ih2, ih3⟩ := ihr (pos + docLen cs)
    obtain ⟨ic1, ic2, ic3⟩ := ihc pos
    simp only [extract3]
    by_cases h1 : pos + docLen cs ≤ a
    · rw [if_pos h1]
      simp only [docLen, ih1, ih2, ih3]
      exact ⟨by omega, by omega, by omega⟩
    · rw [if_neg h1]
      by_cases h2 : b ≤ pos
      · rw [if_pos h2]
        simp only [docLen, ih1, ih2, ih3]
        exact ⟨by omega, by omega, by omega⟩
      · rw [if_neg h2]
        split_ifs <;>
          simp only [docLen, ic1, ic2, ic3, ih1, ih2, ih3] <;>
          exact ⟨by omega, by omega, by omega⟩

theorem pushText_pushText (x y : List Char) (d : Doc) :
    pushText x (pushText y d) = pushText (x ++ y) d := by
  by_cases hy : y.isEmpty
  · have hy' : y = [] := by simpa using hy
    subst hy'
    simp [pushText]
  · by_cases hx : x.isEmpty
    · have hx' : x = [] := by simpa using hx
      subst hx'
      simp [pushText]
    · have hxy : (x ++ y).isEmpty = false := by
        simp_all [List.isEmpty_iff]
      cases d with
      | nil => simp [pushText, hx, hy, hxy]
      | text t r => simp [pushText, hx, hy, hxy, List.append_assoc]
      | marker cs r => simp [pushText, hx, hy, hxy]

theorem canon_glue (a b : Nat) (hab : a < b) (d : Doc) :
    ∀ pos, hasInter a b pos d = false →
      canon ((extract3 a b pos d).1 ++
        ((extract3 a b pos d).2.1 ++ (extract3 a b pos d).2.2)) = canon d := by
  induction d with
  | nil => intro pos _; rfl
  | text s r ih =>
    intro pos hI
    have hItail : hasInter a b (pos + s.length) r = false := hI
    by_cases h2 : b ≤ pos
    · rw [extract3_of_ge a b hab _ pos h2]
      rfl
    · simp only [extract3]
      by_cases h1 : pos + s.length ≤ a
      · rw [if_pos h1]
        simp only [text_append, docAppend_eq_append, canon]
        rw [ih (pos + s.length) hItail]
      · rw [if_neg h1, if_neg h2]
        by_cases hend : b ≤ pos + s.length
        · rw [extract3_of_ge a b hab r (pos + s.length) hend]
          by_cases hpa : pos < a
          · by_cases hbl : b < pos + s.length
            · rw [if_pos hpa, if_pos hbl]
              simp only [text_append, nil_append, docAppend_eq_append, canon, pushText_pushText]
              rw [take_mid_drop s (a - pos) (min (b - pos) s.length) (by omega)]
            · rw [if_pos hpa, if_neg hbl]
              have hj : min (b - pos) s.length = s.length := by omega
              have hmid : (s.drop (a - pos)).take (min (b - pos) s.length - (a - pos))
                  = s.drop (a - pos) := by
                rw [hj]
                exact List.take_of_length_le (by simp)
              simp only [text_append, nil_append, docAppend_eq_append, canon, pushText_pushText, hmid,
                List.take_append_drop]
          · have hi : a - pos = 0 := by omega
            by_cases hbl : b < pos + s.length
            · rw [if_neg hpa, if_pos hbl]
              have hmid : (s.drop (a - pos)).take (min (b - pos) s.length - (a - pos))
                  = s.take (min (b - pos) s.length) := by
                simp [hi]
              simp only [text_append, nil_append, docAppend_eq_append, canon, pushText_pushText, hmid,
                List.take_append_drop]
            · rw [if_neg hpa, if_neg hbl]
              have hj : min (b - pos) s.length = s.length := by omega
              have hmid : (s.drop (a - pos)).take (min (b - pos) s.length - (a - pos))
                  = s := by
                simp [hi, hj]
              simp only [nil_append, docAppend_eq_append, canon, hmid]
        · have hbl : ¬ b < pos + s.length := by omega
          have hj : min (b - pos) s.length = s.length := by omega
          have hL := extract3_left_nil a b r (pos + s.length) (by omega)
          have hIH := ih (pos + s.length) hItail
          rw [hL] at hIH
          simp only [nil_append] at hIH
          by_cases hpa : pos < a
          · rw [if_pos hpa, if_neg hbl, hL]
            have hmid : (s.drop (a - pos)).take (min (b - pos) s.length - (a - pos))
                = s.drop (a - pos) := by
              rw [hj]
              exact List.take_of_length_le (by simp)
            simp only [text_append, nil_append, docAppend_eq_append, canon, pushText_pushText, hmid, hIH,
              List.take_append_drop]
          · rw [if_neg hpa, if_neg hbl, hL]
            have hi : a - pos = 0 := by omega
            have hmid : (s.drop (a - pos)).take (min (b - pos) s.length - (a - pos))
                = s := by
              simp [hi, hj]
            simp only [nil_append, text_append, docAppend_eq_append, canon, hmid, hIH]
  | marker cs r ihc ihr =>
    intro pos hI
    have hI' := hI
    simp only [hasInter, Bool.or_eq_false_iff] at hI'
    obtain ⟨⟨hand, hIc⟩, hIr⟩ := hI'
    by_cases h2 : b ≤ pos
    · rw [extract3_of_ge a b hab _ pos h2]
      rfl
    · simp only [extract3]
      by_cases h1 : pos + docLen cs ≤ a
      · rw [if_pos h1]
        simp only [marker_append, docAppend_eq_append, canon]
        rw [ihr (pos + docLen cs) hIr]
      · exfalso
        simp only [Bool.and_eq_false_iff, decide_eq_false_iff_not] at hand
        rcases hand with h | h <;> omega


theorem noMark_append {x y : Doc} (hx : noMark x = true) (hy : noMark y = true) :
    noMark (x ++ y) = true := by
  induction x with
  | nil => simpa using hy
  | text s r ih =>
    simp only [text_append, noMark] at hx ⊢
    exact ih hx
  | marker cs r ihc ihr => simp [noMark] at hx

theorem noNest_append {x y : Doc} (hx : noNest x = true) (hy : noNest y = true) :
    noNest (x ++ y) = true := by
  induction x with
  | nil => simpa using hy
  | text s r ih =>
    simp only [text_append, noNest] at hx ⊢
    exact ih hx
  | marker cs r ihc ihr =>
    simp only [marker_append, noNest, Bool.and_eq_true] at hx ⊢
    exact ⟨hx.1, ihr hx.2⟩

theorem noEmptyMark_append {x y : Doc} (hx : noEmptyMark x = true)
    (hy : noEmptyMark y = true) : noEmptyMark (x ++ y) = true := by
  induction x with
  | nil => simpa using hy
  | text s r ih =>
    simp only [text_append, noEmptyMark] at hx ⊢
    exact ih hx
  | marker cs r ihc ihr =>
    simp only [marker_append, noEmptyMark, Bool.and_eq_true] at hx ⊢
    exact ⟨hx.1, ihr hx.2⟩

theorem noMark_noNest {d : Doc} (h : noMark d = true) : noNest d = true := by
  induction d with
  | nil => rfl
  | text s r ih =>
    simp only [noMark] at h
    simp only [noNest]
    exact ih h
  | marker cs r ihc ihr => simp [noMark] at h

theorem noMark_noEmptyMark {d : Doc} (h : noMark d = true) :
    noEmptyMark d = true := by
  induction d with
  | nil => rfl
  | text s r ih =>
    simp only [noMark] at h
    simp only [noEmptyMark]
    exact ih h
  | marker cs r ihc ihr => simp [noMark] at h

theorem noMark_pushText (s : List Char) (d : Doc) :
    noMark (pushText s d) = noMark d := by
  by_cases hs : s.isEmpty
  · simp [pushText, hs]
  · cases d <;> simp [pushText, hs, noMark]

theorem noNest_pushText (s : List Char) (d : Doc) :
    noNest (pushText s d) = noNest d := by
  by_cases hs : s.isEmpty
  · simp [pushText, hs]
  · cases d <;> simp [pushText, hs, noNest]

theorem noEmptyMark_pushText (s : List Char) (d : Doc) :
    noEmptyMark (pushText s d) = noEmptyMark d := by
  by_cases hs : s.isEmpty
  · simp [pushText, hs]
  · cases d <;> simp [pushText, hs, noEmptyMark]

theorem noMark_canon {d : Doc} (h : noMark d = true) : noMark (canon d) = true := by
  induction d with
  | nil => rfl
  | text s r ih =>
    simp only [noMark] at h
    simp only [canon, noMark_pushText]
    exact ih h
  | marker cs r ihc ihr => simp [noMark] at h

theorem noNest_canon {d : Doc} (h : noNest d = true) : noNest (canon d) = true := by
  induction d with
  | nil => rfl
  | text s r ih =>
    simp only [noNest] at h
    simp only [canon, noNest_pushText]
    exact ih h
  | marker cs r ihc ihr =>
    simp only [noNest, Bool.and_eq_true] at h
    simp only [canon, noNest, Bool.and_eq_true]
    exact ⟨noMark_canon h.1, ihr h.2⟩

theorem noEmptyMark_canon {d : Doc} (h : noEmptyMark d = true) :
    noEmptyMark (canon d) = true := by
  induction d with
  | nil => rfl
  | text s r ih =>
    simp only [noEmptyMark] at h
    simp only [canon, noEmptyMark_pushText]
    exact ih h
  | marker cs r ihc ihr =>
    simp only [noEmptyMark, Bool.and_eq_true] at h
    simp only [canon, noEmptyMark, Bool.and_eq_true, textOf_canon]
    exact ⟨⟨h.1.1, ihc h.1.2⟩, ihr h.2⟩

theorem unwrapAll_noMark (a b : Nat) (d : Doc) :
    ∀ pos, noMark d = true → unwrapAll a b pos d = d := by
  induction d with
  | nil => intro pos _; rfl
  | text s r ih =>
    intro pos h
    simp only [noMark] at h
    simp only [unwrapAll, ih _ h]
  | marker cs r ihc ihr =>
    intro pos h
    simp [noMark] at h

theorem unwrapAll_of_ge (a b : Nat) (d : Doc) :
    ∀ pos, b ≤ pos → unwrapAll a b pos d = d := by
  induction d with
  | nil => intro pos _; rfl
  | text s r ih =>
    intro pos h
    simp only [unwrapAll, ih _ (by omega : b ≤ pos + s.length)]
  | marker cs r ihc ihr =>
    intro pos h
    simp only [unwrapAll]
    rw [if_neg (by omega : ¬ (a < pos + docLen cs ∧ pos < b))]
    rw [ihr _ (by omega : b ≤ pos + docLen cs)]

theorem unwrapAll_of_le (a b : Nat) (d : Doc) :
    ∀ pos, pos + docLen d ≤ a → unwrapAll a b pos d = d := by
  induction d with
  | nil => intro pos _; rfl
  | text s r ih =>
    intro pos h
    simp only [docLen] at h
    simp only [unwrapAll, ih _ (by omega : pos + s.length + docLen r ≤ a)]
  | marker cs r ihc ihr =>
    intro pos h
    simp only [docLen] at h
    simp only [unwrapAll]
    rw [if_neg (by omega : ¬ (a < pos + docLen cs ∧ pos < b))]
    rw [ihr _ (by omega : pos + docLen cs + docLen r ≤ a)]

theorem unwrapAll_append (a b : Nat) (x y : Doc) :
    ∀ pos, unwrapAll a b pos (x ++ y)
      = unwrapAll a b pos x ++ unwrapAll a b (pos + docLen x) y := by
  induction x with
  | nil => intro pos; simp [unwrapAll, docLen]
  | text s r ih =>
    intro pos
    simp only [text_append, unwrapAll, docLen, docAppend_eq_append,
      ih (pos + s.length), Nat.add_assoc]
  | marker cs r ihc ihr =>
    intro pos
    simp only [marker_append, unwrapAll, docLen, docAppend_eq_append]
    by_cases h : a < pos + docLen cs ∧ pos < b
    · rw [if_pos h, if_pos h, ihr (pos + docLen cs)]
      rw [← docAppend_assoc]
      simp [Nat.add_assoc]
    · rw [if_neg h, if_neg h]
      simp only [marker_append, ihr (pos + docLen cs), Nat.add_assoc]

theorem hasInter_append (a b : Nat) (x y : Doc) :
    ∀ pos, hasInter a b pos (x ++ y)
      = (hasInter a b pos x || hasInter a b (pos + docLen x) y) := by
  induction x with
  | nil => intro pos; simp [hasInter, docLen]
  | text s r ih =>
    intro pos
    simp only [text_append, hasInter, docLen, docAppend_eq_append,
      ih (pos + s.length), Nat.add_assoc]
  | marker cs r ihc ihr =>
    intro pos
    simp only [marker_append, hasInter, docLen, docAppend_eq_append,
      ihr (pos + docLen cs), Nat.add_assoc, Bool.or_assoc]

theorem noNest_unwrapAll (a b : Nat) (d : Doc) :
    ∀ pos, noNest d = true → noNest (unwrapAll a b pos d) = true := by
  induction d with
  | nil => intro pos _; rfl
  | text s r ih =>
    intro pos h
    simp only [noNest] at h
    simp only [unwrapAll, noNest]
    exact ih _ h
  | marker cs r ihc ihr =>
    intro pos h
    simp only [noNest, Bool.and_eq_true] at h
    simp only [unwrapAll]
    by_cases hc : a < pos + docLen cs ∧ pos < b
    · rw [if_pos hc, unwrapAll_noMark a b cs pos h.1]
      exact noNest_append (noMark_noNest h.1) (ihr _ h.2)
    · rw [if_neg hc]
      simp only [noNest, Bool.and_eq_true]
      exact ⟨h.1, ihr _ h.2⟩

theorem noEmptyMark_unwrapAll (a b : Nat) (d : Doc) :
    ∀ pos, noEmptyMark d = true → noEmptyMark (unwrapAll a b pos d) = true := by
  induction d with
  | nil => intro pos _; rfl
  | text s r ih =>
    intro pos h
    simp only [noEmptyMark] at h
    simp only [unwrapAll, noEmptyMark]
    exact ih _ h
  | marker cs r ihc ihr =>
    intro pos h
    simp only [noEmptyMark, Bool.and_eq_true] at h
    simp only [unwrapAll]
    by_cases hc : a < pos + docLen cs ∧ pos < b
    · rw [if_pos hc]
      exact noEmptyMark_append (ihc _ h.1.2) (ihr _ h.2)
    · rw [if_neg hc]
      simp only [noEmptyMark, Bool.and_eq_true]
      exact ⟨h.1, ihr _ h.2⟩

theorem extract3_noMark_mid (a b : Nat) (d : Doc) :
    ∀ pos, hasInter a b pos d = false → noMark (extract3 a b pos d).2.1 = true := by
  induction d with
  | nil => intro pos _; rfl
  | text s r ih =>
    intro pos hI
    simp only [extract3]
    by_cases h1 : pos + s.length ≤ a
    · rw [if_pos h1]
      exact ih _ hI
    · rw [if_neg h1]
      by_cases h2 : b ≤ pos
      · rw [if_pos h2]
        exact ih _ hI
      · rw [if_neg h2]
        simp only [noMark]
        exact ih _ hI
  | marker cs r ihc ihr =>
    intro pos hI
    simp only [hasInter, Bool.or_eq_false_iff] at hI
    obtain ⟨⟨hand, hIc⟩, hIr⟩ := hI
    simp only [extract3]
    by_cases h1 : pos + docLen cs ≤ a
    · rw [if_pos h1]
      exact ihr _ hIr
    · by_cases h2 : b ≤ pos
      · rw [if_neg h1, if_pos h2]
        exact ihr _ hIr
      · exfalso
        simp only [Bool.and_eq_false_iff, decide_eq_false_iff_not] at hand
        rcases hand with h | h <;> omega

theorem extract3_sides_noNest (a b : Nat) (d : Doc) :
    ∀ pos, hasInter a b pos d = false → noNest d = true →
      noNest (extract3 a b pos d).1 = true ∧
      noNest (extract3 a b pos d).2.2 = true := by
  induction d with
  | nil => intro pos _ _; exact ⟨rfl, rfl⟩
  | text s r ih =>
    intro pos hI hN
    simp only [noNest] at hN
    obtain ⟨ih1, ih2⟩ := ih (pos + s.length) hI hN
    simp only [extract3]
    by_cases h1 : pos + s.length ≤ a
    · rw [if_pos h1]
      exact ⟨by simpa [noNest] using ih1, ih2⟩
    · rw [if_neg h1]
      by_cases h2 : b ≤ pos
      · rw [if_pos h2]
        exact ⟨ih1, by simpa [noNest] using ih2⟩
      · rw [if_neg h2]
        split_ifs <;> simp only [noNest] <;> exact ⟨ih1, ih2⟩
  | marker cs r ihc ihr =>
    intro pos hI hN
    simp only [hasInter, Bool.or_eq_false_iff] at hI
    obtain ⟨⟨hand, hIc⟩, hIr⟩ := hI
    simp only [noNest, Bool.and_eq_true] at hN
    obtain ⟨ih1, ih2⟩ := ihr (pos + docLen cs) hIr hN.2
    simp only [extract3]
    by_cases h1 : pos + docLen cs ≤ a
    · rw [if_pos h1]
      refine ⟨?_, ih2⟩
      simp only [noNest, Bool.and_eq_true]
      exact ⟨hN.1, ih1⟩
    · by_cases h2 : b ≤ pos
      · rw [if_neg h1, if_pos h2]
        refine ⟨ih1, ?_⟩
        simp only [noNest, Bool.and_eq_true]
        exact ⟨hN.1, ih2⟩
      · exfalso
        simp only [Bool.and_eq_false_iff, decide_eq_false_iff_not] at hand
        rcases hand with h | h <;> omega

theorem extract3_sides_noEmptyMark (a b : Nat) (d : Doc) :
    ∀ pos, hasInter a b pos d = false → noEmptyMark d = true →
      noEmptyMark (extract3 a b pos d).1 = true ∧
      noEmptyMark (extract3 a b pos d).2.2 = true := by
  induction d with
  | nil => intro pos _ _; exact ⟨rfl, rfl⟩
  | text s r ih =>
    intro pos hI hN
    simp only [noEmptyMark] at hN
    obtain ⟨ih1, ih2⟩ := ih (pos + s.length) hI hN
    simp only [extract3]
    by_cases h1 : pos + s.length ≤ a
    · rw [if_pos h1]
      exact ⟨by simpa [noEmptyMark] using ih1, ih2⟩
    · rw [if_neg h1]
      by_cases h2 : b ≤ pos
      · rw [if_pos h2]
        exact ⟨ih1, by simpa [noEmptyMark] using ih2⟩
      · rw [if_neg h2]
        split_ifs <;> simp only [noEmptyMark] <;> exact ⟨ih1, ih2⟩
  | marker cs r ihc ihr =>
    intro pos hI hN
    simp only [hasInter, Bool.or_eq_false_iff] at hI
    obtain ⟨⟨hand, hIc⟩, hIr⟩ := hI
    simp only [noEmptyMark, Bool.and_eq_true] at hN
    obtain ⟨ih1, ih2⟩ := ihr (pos + docLen cs) hIr hN.2
    simp only [extract3]
    by_cases h1 : pos + docLen cs ≤ a
    · rw [if_pos h1]
      refine ⟨?_, ih2⟩
      simp only [noEmptyMark, Bool.and_eq_true]
      exact ⟨hN.1, ih1⟩
    · by_cases h2 : b ≤ pos
      · rw [if_neg h1, if_pos h2]
        refine ⟨ih1, ?_⟩
        simp only [noEmptyMark, Bool.and_eq_true]
        exact ⟨hN.1, ih2⟩
      · exfalso
        simp only [Bool.and_eq_false_iff, decide_eq_false_iff_not] at hand
        rcases hand with h | h <;> omega


/-- Claim C5: for every document and every selection range, the highlight
toggle — both the unwrap branch and the wrap branch — leaves the
concatenated plain-text content of the document unchanged; only the markup
changes. -/
theorem toggle_textOf (d : Doc) (a b : Nat) :
    textOf (toggleHighlightSelection d a b) = textOf d := by
  unfold toggleHighlightSelection
  by_cases hg : a < b ∧ b ≤ docLen d
  · rw [if_pos hg]
    by_cases hi : hasInter a b 0 d
    · rw [if_pos hi, textOf_canon, textOf_unwrapAll]
    · rw [if_neg hi]
      simp only [textOf_append, textOf]
      exact textOf_extract3 a b (le_of_lt hg.1) d 0
  · rw [if_neg hg]

/-- Claim C6: a collapsed (zero-width) selection range, or one that does not
lie within the document, is rejected as a no-op — the document is returned
entirely unchanged, and no error is raised (the toggle is a total
function). -/
theorem toggle_rejects (d : Doc) (a b : Nat) (h : a = b ∨ docLen d < b) :
    toggleHighlightSelection d a b = d := by
  unfold toggleHighlightSelection
  rw [if_neg]
  rintro ⟨h1, h2⟩
  rcases h with h | h <;> omega

/-- Witness for C6 at a collapsed range on `"ab"`. -/
theorem toggle_rejects_witness :
    ((2 : Nat) = 2 ∨ docLen (Doc.text "ab".toList Doc.nil) < 2) ∧
    toggleHighlightSelection (Doc.text "ab".toList Doc.nil) 2 2
      = Doc.text "ab".toList Doc.nil :=
  ⟨Or.inl rfl, toggle_rejects _ 2 2 (Or.inl rfl)⟩

/-- Claim C4: for every document satisfying the no-nesting invariant and
every selection range — including one partially overlapping an existing
marker, which takes the unwrap branch — the toggle never produces nested
markers: the invariant is preserved by every invocation. -/
theorem toggle_noNest (d : Doc) (a b : Nat) (h : noNest d = true) :
    noNest (toggleHighlightSelection d a b) = true := by
  unfold toggleHighlightSelection
  by_cases hg : a < b ∧ b ≤ docLen d
  · rw [if_pos hg]
    by_cases hi : hasInter a b 0 d
    · rw [if_pos hi]
      exact noNest_canon (noNest_unwrapAll a b d 0 h)
    · rw [if_neg hi]
      have hif : hasInter a b 0 d = false := by simpa using hi
      have hsides := extract3_sides_noNest a b d 0 hif h
      have hmid := extract3_noMark_mid a b d 0 hif
      refine noNest_append hsides.1 ?_
      simp only [noNest, Bool.and_eq_true]
      exact ⟨hmid, hsides.2⟩
  · rw [if_neg hg]
    exact h

/-- Witness for C4: a range partially overlapping the marker of
`<span.marker>ab</span>cd`. -/
theorem toggle_noNest_witness :
    noNest (Doc.marker (Doc.text "ab".toList Doc.nil)
      (Doc.text "cd".toList Doc.nil)) = true ∧
    noNest (toggleHighlightSelection
      (Doc.marker (Doc.text "ab".toList Doc.nil)
        (Doc.text "cd".toList Doc.nil)) 1 3) = true :=
  ⟨by decide, toggle_noNest _ 1 3 (by decide)⟩

/-- Claim C7 fails as stated: wrapping a selection exactly adjacent to an
existing marker leaves two adjacent sibling marker nodes uncombined.  From
`<span.marker>abc</span>def`, toggling the range selecting `"def"`
(offsets 3 to 6, which intersects no marker, so the wrap branch runs)
produces `<span.marker>abc</span><span.marker>def</span>`. -/
theorem toggle_adjacent_cex :
    toggleHighlightSelection
        (Doc.marker (Doc.text "abc".toList Doc.nil)
          (Doc.text "def".toList Doc.nil)) 3 6
      = Doc.marker (Doc.text "abc".toList Doc.nil)
          (Doc.marker (Doc.text "def".toList Doc.nil) Doc.nil) ∧
    hasAdjMarkers (toggleHighlightSelection
        (Doc.marker (Doc.text "abc".toList Doc.nil)
          (Doc.text "def".toList Doc.nil)) 3 6) = true :=
  ⟨by decide, by decide⟩

/-- Claim C7 (amended): the half of the claim about empty markers holds — a
toggle on a document with no empty marker never produces an empty marker
(the wrap branch wraps a non-collapsed range, whose content has positive
text length; the unwrap branch only removes markers, and normalization
preserves marker text) — but two adjacent marker nodes can be left
uncombined, as the counterexample shows. -/
theorem toggle_noEmptyMark (d : Doc) (a b : Nat) (h : noEmptyMark d = true) :
    noEmptyMark (toggleHighlightSelection d a b) = true := by
  unfold toggleHighlightSelection
  by_cases hg : a < b ∧ b ≤ docLen d
  · rw [if_pos hg]
    obtain ⟨hab, hble⟩ := hg
    by_cases hi : hasInter a b 0 d
    · rw [if_pos hi]
      exact noEmptyMark_canon (noEmptyMark_unwrapAll a b d 0 h)
    · rw [if_neg hi]
      have hif : hasInter a b 0 d = false := by simpa using hi
      have hsides := extract3_sides_noEmptyMark a b d 0 hif h
      have hmid := extract3_noMark_mid a b d 0 hif
      refine noEmptyMark_append hsides.1 ?_
      simp only [noEmptyMark, Bool.and_eq_true]
      refine ⟨⟨?_, noMark_noEmptyMark hmid⟩, hsides.2⟩
      rw [decide_eq_true_eq]
      intro heq
      have hlen := (extract3_len a b (le_of_lt hab) d 0).2.1
      have hlt := docLen_eq_length_textOf (extract3 a b 0 d).2.1
      rw [heq] at hlt
      simp at hlt
      omega
  · rw [if_neg hg]
    exact h

/-- Witness for C7 (amended) at `"hello world"`, range `"hello"`. -/
theorem toggle_noEmptyMark_witness :
    noEmptyMark (Doc.text "hello world".toList Doc.nil) = true ∧
    noEmptyMark (toggleHighlightSelection
      (Doc.text "hello world".toList Doc.nil) 0 5) = true :=
  ⟨by decide, toggle_noEmptyMark _ 0 5 (by decide)⟩

/-- Claim C3 fails as stated: when the selected range overlaps an existing
marker, the first toggle unwraps the whole marker and the second wraps
exactly the selected range, which does not restore the original document.
From `<span.marker>hello world</span>`, toggling the range of `"hello"`
(offsets 0 to 5) twice yields `<span.marker>hello</span> world`, which is
not structurally equivalent to the original even after text-node
normalization. -/
theorem toggle_roundtrip_cex :
    toggleHighlightSelection (toggleHighlightSelection
        (Doc.marker (Doc.text "hello world".toList Doc.nil) Doc.nil) 0 5) 0 5
      = Doc.marker (Doc.text "hello".toList Doc.nil)
          (Doc.text " world".toList Doc.nil) ∧
    canon (toggleHighlightSelection (toggleHighlightSelection
        (Doc.marker (Doc.text "hello world".toList Doc.nil) Doc.nil) 0 5) 0 5)
      ≠ canon (Doc.marker (Doc.text "hello world".toList Doc.nil) Doc.nil) :=
  ⟨by decide, by decide⟩

/-- Claim C3 (amended): toggling twice over the same stable range is a round
trip whenever the range intersects no existing marker — the case of the
spec's example, wrap then unwrap: the second toggle returns exactly the
text-node-normalized original document (`canon d`; in particular a
normalized document is restored on the nose).  When the range overlaps an
existing marker the round trip fails, see the counterexample. -/
theorem toggle_roundtrip (d : Doc) (a b : Nat) (hab : a < b)
    (hb : b ≤ docLen d) (hI : hasInter a b 0 d = false) :
    toggleHighlightSelection (toggleHighlightSelection d a b) a b = canon d := by
  obtain ⟨hl1, hl2, hl3⟩ := extract3_len a b (le_of_lt hab) d 0
  have hLlen : docLen (extract3 a b 0 d).1 = a := by rw [hl1]; omega
  have hMlen : docLen (extract3 a b 0 d).2.1 = b - a := by rw [hl2]; omega
  have hRlen : docLen (extract3 a b 0 d).2.2 = docLen d - b := by rw [hl3]; omega
  have hM_noMark : noMark (extract3 a b 0 d).2.1 = true :=
    extract3_noMark_mid a b d 0 hI
  have t1 : toggleHighlightSelection d a b
      = (extract3 a b 0 d).1 ++
          Doc.marker (extract3 a b 0 d).2.1 (extract3 a b 0 d).2.2 := by
    unfold toggleHighlightSelection
    rw [if_pos ⟨hab, hb⟩, if_neg (by simp [hI])]
  rw [t1]
  have hble2 : b ≤ docLen ((extract3 a b 0 d).1 ++
      Doc.marker (extract3 a b 0 d).2.1 (extract3 a b 0 d).2.2) := by
    simp only [docLen_append, docLen]
    omega
  have hscan : hasInter a b 0 ((extract3 a b 0 d).1 ++
      Doc.marker (extract3 a b 0 d).2.1 (extract3 a b 0 d).2.2) = true := by
    rw [hasInter_append, Bool.or_eq_true]
    right
    simp only [hasInter, Bool.or_eq_true, Bool.and_eq_true, decide_eq_true_eq]
    left
    left
    constructor <;> omega
  have hu : unwrapAll a b 0 ((extract3 a b 0 d).1 ++
        Doc.marker (extract3 a b 0 d).2.1 (extract3 a b 0 d).2.2)
      = (extract3 a b 0 d).1 ++
          ((extract3 a b 0 d).2.1 ++ (extract3 a b 0 d).2.2) := by
    rw [unwrapAll_append]
    rw [unwrapAll_of_le a b (extract3 a b 0 d).1 0 (by omega)]
    simp only [unwrapAll]
    rw [if_pos ⟨by omega, by omega⟩]
    rw [unwrapAll_noMark a b (extract3 a b 0 d).2.1 _ hM_noMark,
      unwrapAll_of_ge a b (extract3 a b 0 d).2.2 _ (by omega)]
  unfold toggleHighlightSelection
  rw [if_pos ⟨hab, hble2⟩, if_pos hscan, hu]
  exact canon_glue a b hab d 0 hI

/-- Witness for C3 (amended): the spec's example, `"hello world"` with the
range of `"hello"`, toggled twice. -/
theorem toggle_roundtrip_witness :
    (0 : Nat) < 5 ∧ 5 ≤ docLen (Doc.text "hello world".toList Doc.nil) ∧
    hasInter 0 5 0 (Doc.text "hello world".toList Doc.nil) = false ∧
    toggleHighlightSelection (toggleHighlightSelection
        (Doc.text "hello world".toList Doc.nil) 0 5) 0 5
      = canon (Doc.text "hello world".toList Doc.nil) :=
  ⟨by decide, by decide, by decide,
    toggle_roundtrip _ 0 5 (by decide) (by decide) (by decide)⟩

end CPG
